import Mathlib

/-!
Verification development for the AppBound license system.

The embedding covers the two Solidity contracts
(`CollectibleLicenseNFT` and `AppBoundLicense` in
`contracts/AppBoundLicense.sol`) and the access-issuance handler
(`POST /api/auth` in `backend/index.js`).

Modelling conventions:
* Addresses and token ids are `Nat`; address 0 is the zero address and
  token id 0 is the "no token" sentinel, exactly as in the EVM storage
  (`mapping` defaults).
* `keccak256` over application-id byte strings is idealised as an
  injective digest; since the contracts only ever compare digests for
  equality, the digest of a string is represented by the string itself.
* A reverting call is `Except.error e`: the transaction rolls back, so
  the pre-state is kept by the step function (EVM atomicity).
* Token-URI storage, ERC2981 royalty bookkeeping and ERC721Enumerable
  bookkeeping are not modelled: no claim mentions them and they do not
  touch the registry (`licenses`, owners) or the index (`userAppToken`).
  The corresponding arguments are kept in the signatures.
* Role checks (`onlyOwner`, `onlyRole(MINTER_ROLE)`) are not modelled:
  every operation is taken as invoked by a capability-holding caller,
  matching the spec's abstract capability interface.
* ERC721 inherited behaviour (OpenZeppelin 4.9) is modelled at the
  places the contracts rely on it: `_safeMint` requires a nonzero
  recipient and an unminted id; `transferFrom` requires the token to
  exist and the caller (taken as the `from` address) to be its owner
  before the `_beforeTokenTransfer` hook runs; `_burn` clears the owner
  slot.  Binders named `rcpt` stand for the `to` argument of the source.
-/

namespace AppBound

/-- Equality of call results is decidable (needed to evaluate concrete
traces). -/
instance {ε α : Type} [DecidableEq ε] [DecidableEq α] : DecidableEq (Except ε α) :=
  fun x y =>
    match x, y with
    | .error a, .error b =>
      if h : a = b then isTrue (by rw [h])
      else isFalse (by intro hh; injection hh; exact h (by assumption))
    | .ok a, .ok b =>
      if h : a = b then isTrue (by rw [h])
      else isFalse (by intro hh; injection hh; exact h (by assumption))
    | .error _, .ok _ => isFalse (by intro hh; exact Except.noConfusion hh)
    | .ok _, .error _ => isFalse (by intro hh; exact Except.noConfusion hh)

/-- Idealised keccak256 digest of an application-id string.  The
contracts only compare digests for equality, so an injective stand-in
is faithful; the digest of a string is represented by the string. -/
def appHash (a : String) : String := a

/-- License record of `CollectibleLicenseNFT`
(`struct License begin string appId; uint64 expiry; bool soulbound; bool ephemeral end`). -/
structure License where
  appId : String
  expiry : Nat
  soulbound : Bool
  ephemeral : Bool
deriving DecidableEq, Repr

/-- Solidity mapping default value for `licenses`. -/
def License.deflt : License := ⟨"", 0, false, false⟩

/-- Revert reasons of `CollectibleLicenseNFT` (including the inherited
ERC721 reverts the operations can hit). -/
inductive CErr where
  | capacityExceeded
  | zeroAddress
  | alreadyMinted
  | duplicateLicense
  | openMintDisabled
  | notAllowlisted
  | arityMismatch
  | invalidToken
  | notOwner
  | soulboundLocked
  | notEphemeral
  | alreadyRedeemed
deriving DecidableEq, Repr

/-- Events declared by `CollectibleLicenseNFT` itself. -/
inductive Ev where
  | licenseMinted (rcpt tid : Nat) (appId : String) (expiry : Nat)
  | redeemedEv (user tid : Nat)
deriving DecidableEq, Repr

/-- Storage of `CollectibleLicenseNFT`.  `owners` is the inherited
ERC721 `_owners` mapping (0 = nonexistent); `userAppToken` is keyed by
(owner, app-id digest) with 0 = no entry. -/
structure CState where
  owners : Nat → Nat
  licenses : Nat → License
  userAppToken : Nat → String → Nat
  redeemed : Nat → Bool
  nextTokenId : Nat
  maxSupply : Nat
  openMinting : Bool
  merkleRoot : Nat
  events : List Ev

/-- Deployment state: `nextTokenId = 0`, `openMinting = false`,
`merkleRoot = 0`, empty mappings. -/
def initC (maxSupply : Nat) : CState :=
  { owners := fun _ => 0
    licenses := fun _ => License.deflt
    userAppToken := fun _ _ => 0
    redeemed := fun _ => false
    nextTokenId := 0
    maxSupply := maxSupply
    openMinting := false
    merkleRoot := 0
    events := [] }

/-- OpenZeppelin `MerkleProof.verify`: fold of the commutative keccak
pair hash, idealised here as an injective pairing of the ordered pair. -/
def merklePair (a b : Nat) : Nat := Nat.pair (min a b) (max a b)

/-- Membership verification against the committed root. -/
def merkleVerify (proof : List Nat) (root leaf : Nat) : Bool :=
  proof.foldl (fun acc p => merklePair acc p) leaf == root

/-- Shared tail of `mintCollectible` and `openMint`: allocate
`++nextTokenId`, `_safeMint` (nonzero recipient, id not yet minted),
then — only for a non-empty `appId` — the duplicate check, the license
record, the index entry and the `LicenseMinted` event. -/
def mintCore (s : CState) (rcpt : Nat) (appId : String) (expiry : Nat)
    (soulbound ephemeral : Bool) : Except CErr (CState × Nat) :=
  if rcpt = 0 then .error .zeroAddress
  else if s.owners (s.nextTokenId + 1) ≠ 0 then .error .alreadyMinted
  else if appId = "" then
    .ok ({ s with
            owners := fun t => if t = s.nextTokenId + 1 then rcpt else s.owners t
            nextTokenId := s.nextTokenId + 1 }, s.nextTokenId + 1)
  else if s.userAppToken rcpt (appHash appId) = 0 then
    .ok ({ s with
            owners := fun t => if t = s.nextTokenId + 1 then rcpt else s.owners t
            nextTokenId := s.nextTokenId + 1
            licenses := fun t =>
              if t = s.nextTokenId + 1 then ⟨appId, expiry, soulbound, ephemeral⟩
              else s.licenses t
            userAppToken := fun o k =>
              if o = rcpt ∧ k = appHash appId then s.nextTokenId + 1
              else s.userAppToken o k
            events := s.events ++
              [Ev.licenseMinted rcpt (s.nextTokenId + 1) appId expiry] },
          s.nextTokenId + 1)
  else .error .duplicateLicense

/-- `mintCollectible`: capacity guard (`require(nextTokenId < MAX_SUPPLY)`)
then the shared mint body.  `uri`, `royaltyReceiver`, `royaltyFraction`
are accepted but their storage is outside the modelled state. -/
def mintCollectible (s : CState) (rcpt : Nat) (_uri appId : String) (expiry : Nat)
    (soulbound ephemeral : Bool) (_royaltyReceiver _royaltyFraction : Nat) :
    Except CErr (CState × Nat) :=
  if s.nextTokenId < s.maxSupply then mintCore s rcpt appId expiry soulbound ephemeral
  else .error .capacityExceeded

/-- `openMint`: open-minting flag, capacity guard, optional allowlist
check, then the shared mint body with the caller as recipient. -/
def openMint (s : CState) (caller : Nat) (_uri appId : String) (expiry : Nat)
    (soulbound ephemeral : Bool) (proof : List Nat) : Except CErr (CState × Nat) :=
  if ¬ s.openMinting then .error .openMintDisabled
  else if ¬ (s.nextTokenId < s.maxSupply) then .error .capacityExceeded
  else if s.merkleRoot ≠ 0 ∧ ¬ merkleVerify proof s.merkleRoot caller then
    .error .notAllowlisted
  else mintCore s caller appId expiry soulbound ephemeral

/-- One entry of a `batchMint` call after zipping the argument lists. -/
structure MintReq where
  rcpt : Nat
  uri : String
  appId : String
  expiry : Nat
  soulbound : Bool
  ephemeral : Bool
  royaltyReceiver : Nat
  royaltyFraction : Nat
deriving Repr

/-- Zip the eight `batchMint` argument lists into per-entry requests. -/
def zipReqs : List Nat → List String → List String → List Nat →
    List Bool → List Bool → List Nat → List Nat → List MintReq
  | t :: ts, u :: us, a :: aps, e :: es, sb :: sbs, ep :: eps, r :: rrs, f :: ffs =>
      ⟨t, u, a, e, sb, ep, r, f⟩ :: zipReqs ts us aps es sbs eps rrs ffs
  | _, _, _, _, _, _, _, _ => []

/-- Loop body of `batchMint`: each entry goes through `mintCollectible`;
a reverting entry reverts the whole call (EVM semantics of the internal
call).  Returns the minted ids. -/
def batchMintGo : CState → List MintReq → Except CErr (CState × List Nat)
  | s, [] => .ok (s, [])
  | s, r :: rest =>
    match mintCollectible s r.rcpt r.uri r.appId r.expiry r.soulbound r.ephemeral
        r.royaltyReceiver r.royaltyFraction with
    | .error e => .error e
    | .ok (s1, tid) =>
      match batchMintGo s1 rest with
      | .error e => .error e
      | .ok (s2, ids) => .ok (s2, tid :: ids)

/-- `batchMint`: the arity guard (`require` that all eight lists have
equal length) runs before any mutation; then the loop. -/
def batchMint (s : CState) (recipients : List Nat) (uris appIds : List String)
    (expiries : List Nat) (soulbounds ephemerals : List Bool)
    (royaltyReceivers royaltyFractions : List Nat) : Except CErr (CState × List Nat) :=
  if recipients.length = uris.length ∧ uris.length = appIds.length ∧
      appIds.length = expiries.length ∧ expiries.length = soulbounds.length ∧
      soulbounds.length = ephemerals.length ∧
      ephemerals.length = royaltyReceivers.length ∧
      royaltyReceivers.length = royaltyFractions.length then
    batchMintGo s
      (zipReqs recipients uris appIds expiries soulbounds ephemerals
        royaltyReceivers royaltyFractions)
  else .error .arityMismatch

/-- `transferFrom(src, dst, tid)` invoked by `src`: ERC721 existence and
owner checks, then the `_beforeTokenTransfer` hook (soulbound guard and
index rewrite for a non-empty `appId`), then the owner update. -/
def transferC (s : CState) (src dst tid : Nat) : Except CErr CState :=
  if s.owners tid = 0 then .error .invalidToken
  else if src ≠ s.owners tid then .error .notOwner
  else if dst = 0 then .error .zeroAddress
  else if (s.licenses tid).soulbound then .error .soulboundLocked
  else if (s.licenses tid).appId = "" then
    .ok { s with owners := fun t => if t = tid then dst else s.owners t }
  else
    .ok { s with
            userAppToken := fun o k =>
              if o = dst ∧ k = appHash (s.licenses tid).appId then tid
              else if o = src ∧ k = appHash (s.licenses tid).appId ∧
                  s.userAppToken src (appHash (s.licenses tid).appId) = tid then 0
              else s.userAppToken o k
            owners := fun t => if t = tid then dst else s.owners t }

/-- `burn(tid)` invoked by `caller`: owner check; for a non-empty
`appId` the caller's index slot for that digest and the license record
are deleted; then `_burn` clears the owner. -/
def burnC (s : CState) (caller tid : Nat) : Except CErr CState :=
  if s.owners tid = 0 then .error .invalidToken
  else if caller ≠ s.owners tid then .error .notOwner
  else if (s.licenses tid).appId = "" then
    .ok { s with owners := fun t => if t = tid then 0 else s.owners t }
  else
    .ok { s with
            userAppToken := fun o k =>
              if o = caller ∧ k = appHash (s.licenses tid).appId then 0
              else s.userAppToken o k
            licenses := fun t => if t = tid then License.deflt else s.licenses t
            owners := fun t => if t = tid then 0 else s.owners t }

/-- `redeem(tid)` invoked by `caller`: owner check, ephemeral check,
not-yet-redeemed check, then the one-way flag flip and the `Redeemed`
event. -/
def redeemC (s : CState) (caller tid : Nat) : Except CErr CState :=
  if s.owners tid = 0 then .error .invalidToken
  else if caller ≠ s.owners tid then .error .notOwner
  else if ¬ (s.licenses tid).ephemeral then .error .notEphemeral
  else if s.redeemed tid then .error .alreadyRedeemed
  else
    .ok { s with redeemed := fun t => if t = tid then true else s.redeemed t
                 events := s.events ++ [Ev.redeemedEv caller tid] }

/-- Externally invokable operations of `CollectibleLicenseNFT`. -/
inductive Op where
  | mintOp (rcpt : Nat) (uri appId : String) (expiry : Nat)
      (soulbound ephemeral : Bool) (royaltyReceiver royaltyFraction : Nat)
  | openMintOp (caller : Nat) (uri appId : String) (expiry : Nat)
      (soulbound ephemeral : Bool) (proof : List Nat)
  | batchMintOp (recipients : List Nat) (uris appIds : List String)
      (expiries : List Nat) (soulbounds ephemerals : List Bool)
      (royaltyReceivers royaltyFractions : List Nat)
  | transferOp (src dst tid : Nat)
  | burnOp (caller tid : Nat)
  | redeemOp (caller tid : Nat)
  | setOpenMintingOp (enabled : Bool)
  | setMerkleRootOp (root : Nat)

/-- One transaction: a reverting call leaves the state unchanged.  Also
returns the token ids allocated by the transaction. -/
def stepIds (s : CState) : Op → CState × List Nat
  | .mintOp rcpt u a e sb ep rr rf =>
    match mintCollectible s rcpt u a e sb ep rr rf with
    | .ok (s', tid) => (s', [tid])
    | .error _ => (s, [])
  | .openMintOp c u a e sb ep pf =>
    match openMint s c u a e sb ep pf with
    | .ok (s', tid) => (s', [tid])
    | .error _ => (s, [])
  | .batchMintOp rs us aps es sbs eps rrs rfs =>
    match batchMint s rs us aps es sbs eps rrs rfs with
    | .ok (s', ids) => (s', ids)
    | .error _ => (s, [])
  | .transferOp a b t =>
    match transferC s a b t with
    | .ok s' => (s', [])
    | .error _ => (s, [])
  | .burnOp c t =>
    match burnC s c t with
    | .ok s' => (s', [])
    | .error _ => (s, [])
  | .redeemOp c t =>
    match redeemC s c t with
    | .ok s' => (s', [])
    | .error _ => (s, [])
  | .setOpenMintingOp b => ({ s with openMinting := b }, [])
  | .setMerkleRootOp r => ({ s with merkleRoot := r }, [])

/-- Post-state of one transaction. -/
def stepC (s : CState) (op : Op) : CState := (stepIds s op).1

/-- Run a sequence of transactions, collecting all allocated token ids. -/
def runIds : CState → List Op → CState × List Nat
  | s, [] => (s, [])
  | s, op :: ops =>
    ((runIds (stepIds s op).1 ops).1,
      (stepIds s op).2 ++ (runIds (stepIds s op).1 ops).2)

/-- Post-state of a sequence of transactions. -/
def runC (s : CState) (ops : List Op) : CState := (runIds s ops).1

/-- License record of the simpler `AppBoundLicense` contract
(`struct License begin string appId; uint64 expiry end`). -/
structure ALicense where
  appId : String
  expiry : Nat
deriving DecidableEq, Repr

/-- Solidity mapping default value for `AppBoundLicense.licenses`. -/
def ALicense.deflt : ALicense := ⟨"", 0⟩

/-- Revert reasons of `AppBoundLicense` (including inherited ERC721
reverts). -/
inductive AErr where
  | duplicateLicense
  | zeroAddress
  | alreadyMinted
  | invalidToken
  | notOwner
deriving DecidableEq, Repr

/-- Storage of `AppBoundLicense`. -/
structure AState where
  owners : Nat → Nat
  licenses : Nat → ALicense
  userAppToken : Nat → String → Nat
  nextTokenId : Nat

/-- Deployment state of `AppBoundLicense`. -/
def initA : AState :=
  { owners := fun _ => 0
    licenses := fun _ => ALicense.deflt
    userAppToken := fun _ _ => 0
    nextTokenId := 0 }

/-- `AppBoundLicense.mintTo`: the duplicate check
(`require(userAppToken[rcpt][aHash] == 0)`) comes first, then
`++nextTokenId` and `_safeMint`; the license record and the index entry
are written unconditionally (an empty `appId` is indexed under the
digest of the empty string). -/
def mintTo (s : AState) (rcpt : Nat) (appId _uri : String) (expiry : Nat) :
    Except AErr (AState × Nat) :=
  if s.userAppToken rcpt (appHash appId) = 0 then
    if rcpt = 0 then .error .zeroAddress
    else if s.owners (s.nextTokenId + 1) ≠ 0 then .error .alreadyMinted
    else
      .ok ({ owners := fun t => if t = s.nextTokenId + 1 then rcpt else s.owners t
             licenses := fun t =>
               if t = s.nextTokenId + 1 then ⟨appId, expiry⟩ else s.licenses t
             userAppToken := fun o k =>
               if o = rcpt ∧ k = appHash appId then s.nextTokenId + 1
               else s.userAppToken o k
             nextTokenId := s.nextTokenId + 1 }, s.nextTokenId + 1)
  else .error .duplicateLicense

/-- `AppBoundLicense.burn` invoked by `caller`: owner check, then the
license record and the caller's index slot for the token's app digest
are deleted and the token burned. -/
def burnA (s : AState) (caller tid : Nat) : Except AErr AState :=
  if s.owners tid = 0 then .error .invalidToken
  else if caller ≠ s.owners tid then .error .notOwner
  else
    .ok { owners := fun t => if t = tid then 0 else s.owners t
          licenses := fun t => if t = tid then ALicense.deflt else s.licenses t
          userAppToken := fun o k =>
            if o = caller ∧ k = appHash (s.licenses tid).appId then 0
            else s.userAppToken o k
          nextTokenId := s.nextTokenId }

/-- `transferFrom(src, dst, tid)` on `AppBoundLicense` invoked by `src`:
ERC721 checks, then the `_beforeTokenTransfer` hook, which always
rewrites the index (no soulbound, no empty-app guard here). -/
def transferA (s : AState) (src dst tid : Nat) : Except AErr AState :=
  if s.owners tid = 0 then .error .invalidToken
  else if src ≠ s.owners tid then .error .notOwner
  else if dst = 0 then .error .zeroAddress
  else
    .ok { s with
            userAppToken := fun o k =>
              if o = dst ∧ k = appHash (s.licenses tid).appId then tid
              else if o = src ∧ k = appHash (s.licenses tid).appId ∧
                  s.userAppToken src (appHash (s.licenses tid).appId) = tid then 0
              else s.userAppToken o k
            owners := fun t => if t = tid then dst else s.owners t }

/-- `AppBoundLicense.checkLicense` (view): the index lookup, and the
stored expiry when the lookup is nonzero (the metadata URI it also
returns is not modelled).  Result: `(tokenId, expiry)`. -/
def checkLicense (s : AState) (user : Nat) (appId : String) : Nat × Nat :=
  if s.userAppToken user (appHash appId) ≠ 0 then
    (s.userAppToken user (appHash appId),
      (s.licenses (s.userAppToken user (appHash appId))).expiry)
  else (s.userAppToken user (appHash appId), 0)

/-- Outcomes of the `/api/auth` handler that the claims distinguish. -/
inductive AuthErr where
  | badRequest
  | noLicense
  | licenseExpired
deriving DecidableEq, Repr

/-- Payload of the issued JWT: `(wallet, appId, tokenId)`.  Signing and
the fixed 15-minute TTL are not modelled. -/
structure Credential where
  wallet : Nat
  appId : String
  tokenId : Nat
deriving DecidableEq, Repr

/-- The `POST /api/auth` handler (`issueAccess`): an empty `appId` is
JS-falsy and is rejected as a bad request before any ledger query (a
wallet given as an address string is always truthy, so the wallet half
of that guard cannot fire for an address and is not modelled); then the
`userAppToken` lookup (`NoLicense` when 0), the expiry fetched via
`checkLicense` (`LicenseExpired` when nonzero and strictly below `now`),
and otherwise the credential embedding the looked-up token id. -/
def issueAccess (s : AState) (wallet : Nat) (appId : String) (now : Nat) :
    Except AuthErr Credential :=
  if appId = "" then .error .badRequest
  else if s.userAppToken wallet (appHash appId) = 0 then .error .noLicense
  else if (checkLicense s wallet appId).2 ≠ 0 ∧ now > (checkLicense s wallet appId).2 then
    .error .licenseExpired
  else .ok ⟨wallet, appId, s.userAppToken wallet (appHash appId)⟩

/-- Externally invokable operations of `AppBoundLicense`. -/
inductive AOp where
  | mintToOp (rcpt : Nat) (appId uri : String) (expiry : Nat)
  | transferOp (src dst tid : Nat)
  | burnOp (caller tid : Nat)

/-- One `AppBoundLicense` transaction, with the allocated ids; a revert
keeps the pre-state. -/
def stepAIds (s : AState) : AOp → AState × List Nat
  | .mintToOp rcpt a u e =>
    match mintTo s rcpt a u e with
    | .ok (s', tid) => (s', [tid])
    | .error _ => (s, [])
  | .transferOp a b t =>
    match transferA s a b t with
    | .ok s' => (s', [])
    | .error _ => (s, [])
  | .burnOp c t =>
    match burnA s c t with
    | .ok s' => (s', [])
    | .error _ => (s, [])

/-- Post-state of one `AppBoundLicense` transaction. -/
def stepA (s : AState) (op : AOp) : AState := (stepAIds s op).1

/-- Run a sequence of `AppBoundLicense` transactions, collecting all
allocated token ids. -/
def runAIds : AState → List AOp → AState × List Nat
  | s, [] => (s, [])
  | s, op :: ops =>
    ((runAIds (stepAIds s op).1 ops).1,
      (stepAIds s op).2 ++ (runAIds (stepAIds s op).1 ops).2)

/-- Post-state of a sequence of `AppBoundLicense` transactions. -/
def runA (s : AState) (ops : List AOp) : AState := (runAIds s ops).1

/-- Revert reason of a call result, if any (used to state concrete
outcomes decidably, since states contain functions). -/
def errC {β : Type} : Except CErr β → Option CErr
  | .error e => some e
  | .ok _ => none

/-- Structural soundness of the ownership index: every token id is in
`[1, nextTokenId]`, and every nonzero index entry `(o, k)` references a
token that exists, is owned by `o`, has a non-empty application id whose
digest is `k`, and has an already-allocated id. -/
def InvC (s : CState) : Prop :=
  (∀ t, s.owners t ≠ 0 → 1 ≤ t ∧ t ≤ s.nextTokenId) ∧
  (∀ o k, s.userAppToken o k ≠ 0 →
    o ≠ 0 ∧
    s.owners (s.userAppToken o k) = o ∧
    (s.licenses (s.userAppToken o k)).appId ≠ "" ∧
    appHash (s.licenses (s.userAppToken o k)).appId = k ∧
    s.userAppToken o k ≤ s.nextTokenId)

/-- Iterated `mintCollectible` with the empty application id (the
"accumulate arbitrarily many" scenario of C10). -/
def emptyMints (rcpt : Nat) (u : String) (e : Nat) (sb ep : Bool) (rr rf : Nat) :
    CState → Nat → Except CErr CState
  | s, 0 => .ok s
  | s, n+1 =>
    match mintCollectible s rcpt u "" e sb ep rr rf with
    | .error er => .error er
    | .ok (s1, _) => emptyMints rcpt u e sb ep rr rf s1 n

/-- A reverting `mintCollectible` transaction leaves the state unchanged. -/
theorem stepC_mint_error (s : CState) (rcpt : Nat) (u a : String) (e : Nat)
    (sb ep : Bool) (rr rf : Nat) (er : CErr)
    (h : mintCollectible s rcpt u a e sb ep rr rf = .error er) :
    stepC s (.mintOp rcpt u a e sb ep rr rf) = s := by
  simp only [stepC, stepIds]
  rw [h]

/-- A reverting `openMint` transaction leaves the state unchanged. -/
theorem stepC_open_error (s : CState) (c : Nat) (u a : String) (e : Nat)
    (sb ep : Bool) (pf : List Nat) (er : CErr)
    (h : openMint s c u a e sb ep pf = .error er) :
    stepC s (.openMintOp c u a e sb ep pf) = s := by
  simp only [stepC, stepIds]
  rw [h]

/-- A reverting `batchMint` transaction leaves the state unchanged. -/
theorem stepC_batch_error (s : CState) (rs : List Nat) (us aps : List String)
    (es : List Nat) (sbs eps : List Bool) (rrs rfs : List Nat) (er : CErr)
    (h : batchMint s rs us aps es sbs eps rrs rfs = .error er) :
    stepC s (.batchMintOp rs us aps es sbs eps rrs rfs) = s := by
  simp only [stepC, stepIds]
  rw [h]

/-- A reverting transfer transaction leaves the state unchanged. -/
theorem stepC_transfer_error (s : CState) (src dst tid : Nat) (er : CErr)
    (h : transferC s src dst tid = .error er) :
    stepC s (.transferOp src dst tid) = s := by
  simp only [stepC, stepIds]
  rw [h]

/-- A reverting burn transaction leaves the state unchanged. -/
theorem stepC_burn_error (s : CState) (caller tid : Nat) (er : CErr)
    (h : burnC s caller tid = .error er) :
    stepC s (.burnOp caller tid) = s := by
  simp only [stepC, stepIds]
  rw [h]

/-- A reverting redeem transaction leaves the state unchanged. -/
theorem stepC_redeem_error (s : CState) (caller tid : Nat) (er : CErr)
    (h : redeemC s caller tid = .error er) :
    stepC s (.redeemOp caller tid) = s := by
  simp only [stepC, stepIds]
  rw [h]

/-- The deployment state satisfies the index invariant. -/
theorem initC_inv (m : Nat) : InvC (initC m) := by
  constructor
  · intro t ht
    exact absurd rfl ht
  · intro o k hk
    exact absurd rfl hk

/-- A successful `mintCore` preserves the index invariant. -/
theorem mintCore_inv (s : CState) (rcpt : Nat) (a : String) (e : Nat) (sb ep : Bool)
    (s' : CState) (tid : Nat) (h : mintCore s rcpt a e sb ep = .ok (s', tid))
    (inv : InvC s) : InvC s' := by
  obtain ⟨invA, invB⟩ := inv
  unfold mintCore at h
  by_cases h1 : rcpt = 0
  · rw [if_pos h1] at h; cases h
  rw [if_neg h1] at h
  by_cases h2 : s.owners (s.nextTokenId + 1) ≠ 0
  · rw [if_pos h2] at h; cases h
  rw [if_neg h2] at h
  by_cases h3 : a = ""
  · rw [if_pos h3] at h
    injection h with h
    injection h with hs ht
    subst hs
    constructor
    · intro t htt
      dsimp only at htt ⊢
      by_cases he : t = s.nextTokenId + 1
      · subst he; omega
      · rw [if_neg he] at htt
        have := invA t htt
        omega
    · intro o k hk
      dsimp only at hk ⊢
      obtain ⟨ho, hw, hne, hh, hle⟩ := invB o k hk
      have hv : s.userAppToken o k ≠ s.nextTokenId + 1 := by omega
      rw [if_neg hv]
      exact ⟨ho, hw, hne, hh, by omega⟩
  rw [if_neg h3] at h
  by_cases h4 : s.userAppToken rcpt (appHash a) = 0
  · rw [if_pos h4] at h
    injection h with h
    injection h with hs ht
    subst hs
    constructor
    · intro t htt
      dsimp only at htt ⊢
      by_cases he : t = s.nextTokenId + 1
      · subst he; omega
      · rw [if_neg he] at htt
        have := invA t htt
        omega
    · intro o k hk
      dsimp only at hk ⊢
      by_cases hc : o = rcpt ∧ k = appHash a
      · rw [if_pos hc] at hk ⊢
        rw [if_pos rfl, if_pos rfl]
        exact ⟨by rw [hc.1]; exact h1, hc.1.symm, h3, hc.2.symm, Nat.le_refl _⟩
      · rw [if_neg hc] at hk ⊢
        obtain ⟨ho, hw, hne, hh, hle⟩ := invB o k hk
        have hv : s.userAppToken o k ≠ s.nextTokenId + 1 := by omega
        rw [if_neg hv, if_neg hv]
        exact ⟨ho, hw, hne, hh, by omega⟩
  · rw [if_neg h4] at h; cases h

/-- A successful `mintCollectible` preserves the index invariant. -/
theorem mintCollectible_inv (s : CState) (rcpt : Nat) (u a : String) (e : Nat)
    (sb ep : Bool) (rr rf : Nat) (s' : CState) (tid : Nat)
    (h : mintCollectible s rcpt u a e sb ep rr rf = .ok (s', tid))
    (inv : InvC s) : InvC s' := by
  unfold mintCollectible at h
  by_cases hc : s.nextTokenId < s.maxSupply
  · rw [if_pos hc] at h
    exact mintCore_inv s rcpt a e sb ep s' tid h inv
  · rw [if_neg hc] at h; cases h

/-- A successful `openMint` preserves the index invariant. -/
theorem openMint_inv (s : CState) (c : Nat) (u a : String) (e : Nat)
    (sb ep : Bool) (pf : List Nat) (s' : CState) (tid : Nat)
    (h : openMint s c u a e sb ep pf = .ok (s', tid))
    (inv : InvC s) : InvC s' := by
  unfold openMint at h
  by_cases h1 : ¬ s.openMinting
  · rw [if_pos h1] at h; cases h
  rw [if_neg h1] at h
  by_cases h2 : ¬ (s.nextTokenId < s.maxSupply)
  · rw [if_pos h2] at h; cases h
  rw [if_neg h2] at h
  by_cases h3 : s.merkleRoot ≠ 0 ∧ ¬ merkleVerify pf s.merkleRoot c
  · rw [if_pos h3] at h; cases h
  · rw [if_neg h3] at h
    exact mintCore_inv s c a e sb ep s' tid h inv

/-- A successful `batchMintGo` preserves the index invariant. -/
theorem batchMintGo_inv (reqs : List MintReq) (s : CState) (s' : CState)
    (ids : List Nat) (h : batchMintGo s reqs = .ok (s', ids))
    (inv : InvC s) : InvC s' := by
  induction reqs generalizing s ids with
  | nil =>
    unfold batchMintGo at h
    injection h with h
    injection h with hs ht
    subst hs
    exact inv
  | cons r rest ih =>
    unfold batchMintGo at h
    split at h
    · cases h
    · rename_i s1 tid1 heq
      split at h
      · cases h
      · rename_i s2 ids2 heq2
        injection h with h2
        injection h2 with hs hi
        subst hs
        exact ih s1 ids2 heq2
          (mintCollectible_inv s r.rcpt r.uri r.appId r.expiry r.soulbound r.ephemeral
            r.royaltyReceiver r.royaltyFraction s1 tid1 heq inv)

/-- A successful `batchMint` preserves the index invariant. -/
theorem batchMint_inv (s : CState) (rs : List Nat) (us aps : List String)
    (es : List Nat) (sbs eps : List Bool) (rrs rfs : List Nat)
    (s' : CState) (ids : List Nat)
    (h : batchMint s rs us aps es sbs eps rrs rfs = .ok (s', ids))
    (inv : InvC s) : InvC s' := by
  unfold batchMint at h
  by_cases hl : rs.length = us.length ∧ us.length = aps.length ∧
      aps.length = es.length ∧ es.length = sbs.length ∧ sbs.length = eps.length ∧
      eps.length = rrs.length ∧ rrs.length = rfs.length
  · rw [if_pos hl] at h
    exact batchMintGo_inv _ s s' ids h inv
  · rw [if_neg hl] at h; cases h

/-- A successful transfer preserves the index invariant. -/
theorem transferC_inv (s : CState) (src dst tid : Nat) (s' : CState)
    (h : transferC s src dst tid = .ok s') (inv : InvC s) : InvC s' := by
  obtain ⟨invA, invB⟩ := inv
  unfold transferC at h
  by_cases h0 : s.owners tid = 0
  · rw [if_pos h0] at h; cases h
  rw [if_neg h0] at h
  by_cases h1 : src ≠ s.owners tid
  · rw [if_pos h1] at h; cases h
  rw [if_neg h1] at h
  by_cases h2 : dst = 0
  · rw [if_pos h2] at h; cases h
  rw [if_neg h2] at h
  by_cases hsb : (s.licenses tid).soulbound = true
  · rw [if_pos hsb] at h; cases h
  rw [if_neg hsb] at h
  have hsrc : src = s.owners tid := by
    by_contra hx; exact h1 hx
  by_cases ha : (s.licenses tid).appId = ""
  · rw [if_pos ha] at h
    injection h with hs
    subst hs
    constructor
    · intro t htt
      dsimp only at htt ⊢
      by_cases he : t = tid
      · subst he
        have := invA t h0
        omega
      · rw [if_neg he] at htt
        exact invA t htt
    · intro o k hk
      dsimp only at hk ⊢
      obtain ⟨ho, hw, hne, hh, hle⟩ := invB o k hk
      have hv : s.userAppToken o k ≠ tid := by
        intro hx
        rw [hx] at hne
        exact hne ha
      rw [if_neg hv]
      exact ⟨ho, hw, hne, hh, hle⟩
  · rw [if_neg ha] at h
    injection h with hs
    subst hs
    constructor
    · intro t htt
      dsimp only at htt ⊢
      by_cases he : t = tid
      · subst he
        have := invA t h0
        omega
      · rw [if_neg he] at htt
        exact invA t htt
    · intro o k hk
      dsimp only at hk ⊢
      by_cases hc1 : o = dst ∧ k = appHash (s.licenses tid).appId
      · rw [if_pos hc1] at hk ⊢
        rw [if_pos rfl]
        exact ⟨by rw [hc1.1]; exact h2, hc1.1.symm, ha, hc1.2.symm,
          (invA tid h0).2⟩
      · rw [if_neg hc1] at hk ⊢
        by_cases hc2 : o = src ∧ k = appHash (s.licenses tid).appId ∧
            s.userAppToken src (appHash (s.licenses tid).appId) = tid
        · rw [if_pos hc2] at hk
          exact absurd rfl hk
        · rw [if_neg hc2] at hk ⊢
          obtain ⟨ho, hw, hne, hh, hle⟩ := invB o k hk
          have hv : s.userAppToken o k ≠ tid := by
            intro hx
            apply hc2
            have ho' : o = src := by
              rw [hsrc, ← hw, hx]
            have hk' : k = appHash (s.licenses tid).appId := by
              rw [← hh, hx]
            refine ⟨ho', hk', ?_⟩
            rw [← ho', ← hk', hx]
          rw [if_neg hv]
          exact ⟨ho, hw, hne, hh, hle⟩

/-- A successful burn preserves the index invariant. -/
theorem burnC_inv (s : CState) (caller tid : Nat) (s' : CState)
    (h : burnC s caller tid = .ok s') (inv : InvC s) : InvC s' := by
  obtain ⟨invA, invB⟩ := inv
  unfold burnC at h
  by_cases h0 : s.owners tid = 0
  · rw [if_pos h0] at h; cases h
  rw [if_neg h0] at h
  by_cases h1 : caller ≠ s.owners tid
  · rw [if_pos h1] at h; cases h
  rw [if_neg h1] at h
  have hcal : caller = s.owners tid := by
    by_contra hx; exact h1 hx
  by_cases ha : (s.licenses tid).appId = ""
  · rw [if_pos ha] at h
    injection h with hs
    subst hs
    constructor
    · intro t htt
      dsimp only at htt ⊢
      by_cases he : t = tid
      · rw [if_pos he] at htt
        exact absurd rfl htt
      · rw [if_neg he] at htt
        exact invA t htt
    · intro o k hk
      dsimp only at hk ⊢
      obtain ⟨ho, hw, hne, hh, hle⟩ := invB o k hk
      have hv : s.userAppToken o k ≠ tid := by
        intro hx
        rw [hx] at hne
        exact hne ha
      rw [if_neg hv]
      exact ⟨ho, hw, hne, hh, hle⟩
  · rw [if_neg ha] at h
    injection h with hs
    subst hs
    constructor
    · intro t htt
      dsimp only at htt ⊢
      by_cases he : t = tid
      · rw [if_pos he] at htt
        exact absurd rfl htt
      · rw [if_neg he] at htt
        exact invA t htt
    · intro o k hk
      dsimp only at hk ⊢
      by_cases hc : o = caller ∧ k = appHash (s.licenses tid).appId
      · rw [if_pos hc] at hk
        exact absurd rfl hk
      · rw [if_neg hc] at hk ⊢
        obtain ⟨ho, hw, hne, hh, hle⟩ := invB o k hk
        have hv : s.userAppToken o k ≠ tid := by
          intro hx
          apply hc
          have ho' : o = caller := by
            rw [hcal, ← hw, hx]
          have hk' : k = appHash (s.licenses tid).appId := by
            rw [← hh, hx]
          exact ⟨ho', hk'⟩
        rw [if_neg hv, if_neg hv]
        exact ⟨ho, hw, hne, hh, hle⟩

/-- A successful redeem preserves the index invariant (it only flips the
redeemed flag and appends an event). -/
theorem redeemC_inv (s : CState) (caller tid : Nat) (s' : CState)
    (h : redeemC s caller tid = .ok s') (inv : InvC s) : InvC s' := by
  unfold redeemC at h
  by_cases h0 : s.owners tid = 0
  · rw [if_pos h0] at h; cases h
  rw [if_neg h0] at h
  by_cases h1 : caller ≠ s.owners tid
  · rw [if_pos h1] at h; cases h
  rw [if_neg h1] at h
  by_cases h2 : ¬ (s.licenses tid).ephemeral
  · rw [if_pos h2] at h; cases h
  rw [if_neg h2] at h
  by_cases h3 : s.redeemed tid = true
  · rw [if_pos h3] at h; cases h
  · rw [if_neg h3] at h
    injection h with hs
    subst hs
    exact inv

/-- Every transaction preserves the index invariant. -/
theorem stepC_inv (s : CState) (op : Op) (inv : InvC s) : InvC (stepC s op) := by
  cases op with
  | mintOp rcpt u a e sb ep rr rf =>
    simp only [stepC, stepIds]
    cases hm : mintCollectible s rcpt u a e sb ep rr rf with
    | ok p => exact mintCollectible_inv s rcpt u a e sb ep rr rf p.1 p.2 (by rw [hm]) inv
    | error e => exact inv
  | openMintOp c u a e sb ep pf =>
    simp only [stepC, stepIds]
    cases hm : openMint s c u a e sb ep pf with
    | ok p => exact openMint_inv s c u a e sb ep pf p.1 p.2 (by rw [hm]) inv
    | error e => exact inv
  | batchMintOp rs us aps es sbs eps rrs rfs =>
    simp only [stepC, stepIds]
    cases hm : batchMint s rs us aps es sbs eps rrs rfs with
    | ok p => exact batchMint_inv s rs us aps es sbs eps rrs rfs p.1 p.2 (by rw [hm]) inv
    | error e => exact inv
  | transferOp a b t =>
    simp only [stepC, stepIds]
    cases hm : transferC s a b t with
    | ok s' => exact transferC_inv s a b t s' hm inv
    | error e => exact inv
  | burnOp c t =>
    simp only [stepC, stepIds]
    cases hm : burnC s c t with
    | ok s' => exact burnC_inv s c t s' hm inv
    | error e => exact inv
  | redeemOp c t =>
    simp only [stepC, stepIds]
    cases hm : redeemC s c t with
    | ok s' => exact redeemC_inv s c t s' hm inv
    | error e => exact inv
  | setOpenMintingOp b =>
    exact ⟨inv.1, inv.2⟩
  | setMerkleRootOp r =>
    exact ⟨inv.1, inv.2⟩

/-- The index invariant holds after any sequence of transactions from
any state satisfying it. -/
theorem runC_inv (ops : List Op) (s : CState) (inv : InvC s) : InvC (runC s ops) := by
  induction ops generalizing s with
  | nil => exact inv
  | cons op ops ih =>
    have h1 : runC s (op :: ops) = runC (stepC s op) ops := rfl
    rw [h1]
    exact ih (stepC s op) (stepC_inv s op inv)

/-- A successful `mintCore` allocates exactly the next id and leaves the
configuration fields unchanged. -/
theorem mintCore_shape (s : CState) (rcpt : Nat) (a : String) (e : Nat) (sb ep : Bool)
    (s' : CState) (tid : Nat) (h : mintCore s rcpt a e sb ep = .ok (s', tid)) :
    tid = s.nextTokenId + 1 ∧ s'.nextTokenId = s.nextTokenId + 1 ∧
    s'.maxSupply = s.maxSupply := by
  unfold mintCore at h
  by_cases h1 : rcpt = 0
  · rw [if_pos h1] at h; cases h
  rw [if_neg h1] at h
  by_cases h2 : s.owners (s.nextTokenId + 1) ≠ 0
  · rw [if_pos h2] at h; cases h
  rw [if_neg h2] at h
  by_cases h3 : a = ""
  · rw [if_pos h3] at h
    injection h with h
    injection h with hs ht
    subst hs; subst ht
    exact ⟨rfl, rfl, rfl⟩
  rw [if_neg h3] at h
  by_cases h4 : s.userAppToken rcpt (appHash a) = 0
  · rw [if_pos h4] at h
    injection h with h
    injection h with hs ht
    subst hs; subst ht
    exact ⟨rfl, rfl, rfl⟩
  · rw [if_neg h4] at h; cases h

/-- A successful `mintCollectible` passed the capacity guard and
allocates exactly the next id. -/
theorem mintCollectible_shape (s : CState) (rcpt : Nat) (u a : String) (e : Nat)
    (sb ep : Bool) (rr rf : Nat) (s' : CState) (tid : Nat)
    (h : mintCollectible s rcpt u a e sb ep rr rf = .ok (s', tid)) :
    tid = s.nextTokenId + 1 ∧ s'.nextTokenId = s.nextTokenId + 1 ∧
    s'.maxSupply = s.maxSupply ∧ s.nextTokenId < s.maxSupply := by
  unfold mintCollectible at h
  by_cases hc : s.nextTokenId < s.maxSupply
  · rw [if_pos hc] at h
    obtain ⟨h1, h2, h3⟩ := mintCore_shape s rcpt a e sb ep s' tid h
    exact ⟨h1, h2, h3, hc⟩
  · rw [if_neg hc] at h; cases h

/-- A successful `openMint` passed the capacity guard and allocates
exactly the next id. -/
theorem openMint_shape (s : CState) (c : Nat) (u a : String) (e : Nat)
    (sb ep : Bool) (pf : List Nat) (s' : CState) (tid : Nat)
    (h : openMint s c u a e sb ep pf = .ok (s', tid)) :
    tid = s.nextTokenId + 1 ∧ s'.nextTokenId = s.nextTokenId + 1 ∧
    s'.maxSupply = s.maxSupply ∧ s.nextTokenId < s.maxSupply := by
  unfold openMint at h
  by_cases h1 : ¬ s.openMinting
  · rw [if_pos h1] at h; cases h
  rw [if_neg h1] at h
  by_cases h2 : ¬ (s.nextTokenId < s.maxSupply)
  · rw [if_pos h2] at h; cases h
  rw [if_neg h2] at h
  by_cases h3 : s.merkleRoot ≠ 0 ∧ ¬ merkleVerify pf s.merkleRoot c
  · rw [if_pos h3] at h; cases h
  · rw [if_neg h3] at h
    obtain ⟨ha, hb, hc⟩ := mintCore_shape s c a e sb ep s' tid h
    exact ⟨ha, hb, hc, by omega⟩

/-- A successful transfer allocates nothing and keeps the configuration. -/
theorem transferC_shape (s : CState) (src dst tid : Nat) (s' : CState)
    (h : transferC s src dst tid = .ok s') :
    s'.nextTokenId = s.nextTokenId ∧ s'.maxSupply = s.maxSupply := by
  unfold transferC at h
  by_cases h0 : s.owners tid = 0
  · rw [if_pos h0] at h; cases h
  rw [if_neg h0] at h
  by_cases h1 : src ≠ s.owners tid
  · rw [if_pos h1] at h; cases h
  rw [if_neg h1] at h
  by_cases h2 : dst = 0
  · rw [if_pos h2] at h; cases h
  rw [if_neg h2] at h
  by_cases hsb : (s.licenses tid).soulbound = true
  · rw [if_pos hsb] at h; cases h
  rw [if_neg hsb] at h
  by_cases ha : (s.licenses tid).appId = ""
  · rw [if_pos ha] at h
    injection h with hs
    subst hs
    exact ⟨rfl, rfl⟩
  · rw [if_neg ha] at h
    injection h with hs
    subst hs
    exact ⟨rfl, rfl⟩

/-- A successful burn allocates nothing and keeps the configuration. -/
theorem burnC_shape (s : CState) (caller tid : Nat) (s' : CState)
    (h : burnC s caller tid = .ok s') :
    s'.nextTokenId = s.nextTokenId ∧ s'.maxSupply = s.maxSupply := by
  unfold burnC at h
  by_cases h0 : s.owners tid = 0
  · rw [if_pos h0] at h; cases h
  rw [if_neg h0] at h
  by_cases h1 : caller ≠ s.owners tid
  · rw [if_pos h1] at h; cases h
  rw [if_neg h1] at h
  by_cases ha : (s.licenses tid).appId = ""
  · rw [if_pos ha] at h
    injection h with hs
    subst hs
    exact ⟨rfl, rfl⟩
  · rw [if_neg ha] at h
    injection h with hs
    subst hs
    exact ⟨rfl, rfl⟩

/-- A successful redeem allocates nothing and keeps the configuration. -/
theorem redeemC_shape (s : CState) (caller tid : Nat) (s' : CState)
    (h : redeemC s caller tid = .ok s') :
    s'.nextTokenId = s.nextTokenId ∧ s'.maxSupply = s.maxSupply := by
  unfold redeemC at h
  by_cases h0 : s.owners tid = 0
  · rw [if_pos h0] at h; cases h
  rw [if_neg h0] at h
  by_cases h1 : caller ≠ s.owners tid
  · rw [if_pos h1] at h; cases h
  rw [if_neg h1] at h
  by_cases h2 : ¬ (s.licenses tid).ephemeral
  · rw [if_pos h2] at h; cases h
  rw [if_neg h2] at h
  by_cases h3 : s.redeemed tid = true
  · rw [if_pos h3] at h; cases h
  · rw [if_neg h3] at h
    injection h with hs
    subst hs
    exact ⟨rfl, rfl⟩

/-- The `batchMint` loop allocates exactly the ids
`nextTokenId+1, …, nextTokenId+n` in order and respects capacity. -/
theorem batchMintGo_shape (reqs : List MintReq) (s : CState) (s' : CState)
    (ids : List Nat) (h : batchMintGo s reqs = .ok (s', ids)) :
    ids = List.range' (s.nextTokenId + 1) ids.length ∧
    s'.nextTokenId = s.nextTokenId + ids.length ∧
    s'.maxSupply = s.maxSupply ∧
    (s.nextTokenId ≤ s.maxSupply → s'.nextTokenId ≤ s'.maxSupply) := by
  induction reqs generalizing s ids with
  | nil =>
    unfold batchMintGo at h
    injection h with h
    injection h with hs hi
    subst hs; subst hi
    exact ⟨rfl, rfl, rfl, fun hx => hx⟩
  | cons r rest ih =>
    unfold batchMintGo at h
    split at h
    · cases h
    · rename_i s1 tid1 heq
      split at h
      · cases h
      · rename_i s2 ids2 heq2
        injection h with h2
        injection h2 with hs hi
        subst hs; subst hi
        obtain ⟨m1, m2, m3, m4⟩ := mintCollectible_shape s r.rcpt r.uri r.appId
          r.expiry r.soulbound r.ephemeral r.royaltyReceiver r.royaltyFraction
          s1 tid1 heq
        obtain ⟨g1, g2, g3, g4⟩ := ih s1 ids2 heq2
        refine ⟨?_, ?_, by rw [g3, m3], ?_⟩
        · have hlen : (tid1 :: ids2).length = ids2.length + 1 := by simp
          rw [hlen, List.range'_succ]
          congr 1
          have hst : s1.nextTokenId + 1 = s.nextTokenId + 1 + 1 := by omega
          rw [← hst]
          exact g1
        · simp only [List.length_cons]
          omega
        · intro hx
          have hy : s1.nextTokenId ≤ s1.maxSupply := by omega
          exact g4 hy

/-- A successful `batchMint` allocates exactly the next ids in order
and respects capacity. -/
theorem batchMint_shape (s : CState) (rs : List Nat) (us aps : List String)
    (es : List Nat) (sbs eps : List Bool) (rrs rfs : List Nat)
    (s' : CState) (ids : List Nat)
    (h : batchMint s rs us aps es sbs eps rrs rfs = .ok (s', ids)) :
    ids = List.range' (s.nextTokenId + 1) ids.length ∧
    s'.nextTokenId = s.nextTokenId + ids.length ∧
    s'.maxSupply = s.maxSupply ∧
    (s.nextTokenId ≤ s.maxSupply → s'.nextTokenId ≤ s'.maxSupply) := by
  unfold batchMint at h
  by_cases hl : rs.length = us.length ∧ us.length = aps.length ∧
      aps.length = es.length ∧ es.length = sbs.length ∧ sbs.length = eps.length ∧
      eps.length = rrs.length ∧ rrs.length = rfs.length
  · rw [if_pos hl] at h
    exact batchMintGo_shape _ s s' ids h
  · rw [if_neg hl] at h; cases h

/-- Every transaction allocates exactly the ids
`nextTokenId+1, …, nextTokenId+n` for some `n ≥ 0`, increments the
counter by `n`, keeps the configured maximum supply, and never pushes
the counter past it. -/
theorem stepIds_shape (s : CState) (op : Op) :
    (stepIds s op).2 = List.range' (s.nextTokenId + 1) (stepIds s op).2.length ∧
    (stepIds s op).1.nextTokenId = s.nextTokenId + (stepIds s op).2.length ∧
    (stepIds s op).1.maxSupply = s.maxSupply ∧
    (s.nextTokenId ≤ s.maxSupply →
      (stepIds s op).1.nextTokenId ≤ (stepIds s op).1.maxSupply) := by
  cases op with
  | mintOp rcpt u a e sb ep rr rf =>
    simp only [stepIds]
    cases hm : mintCollectible s rcpt u a e sb ep rr rf with
    | ok p =>
      obtain ⟨s', tid⟩ := p
      obtain ⟨m1, m2, m3, m4⟩ := mintCollectible_shape s rcpt u a e sb ep rr rf
        s' tid hm
      refine ⟨?_, ?_, m3, fun _ => ?_⟩
      · show [tid] = List.range' (s.nextTokenId + 1) [tid].length
        simp [m1]
      · show s'.nextTokenId = s.nextTokenId + [tid].length
        simp [m2]
      · show s'.nextTokenId ≤ s'.maxSupply
        omega
    | error e => exact ⟨rfl, rfl, rfl, fun hx => hx⟩
  | openMintOp c u a e sb ep pf =>
    simp only [stepIds]
    cases hm : openMint s c u a e sb ep pf with
    | ok p =>
      obtain ⟨s', tid⟩ := p
      obtain ⟨m1, m2, m3, m4⟩ := openMint_shape s c u a e sb ep pf s' tid hm
      refine ⟨?_, ?_, m3, fun _ => ?_⟩
      · show [tid] = List.range' (s.nextTokenId + 1) [tid].length
        simp [m1]
      · show s'.nextTokenId = s.nextTokenId + [tid].length
        simp [m2]
      · show s'.nextTokenId ≤ s'.maxSupply
        omega
    | error e => exact ⟨rfl, rfl, rfl, fun hx => hx⟩
  | batchMintOp rs us aps es sbs eps rrs rfs =>
    simp only [stepIds]
    cases hm : batchMint s rs us aps es sbs eps rrs rfs with
    | ok p =>
      obtain ⟨s', ids⟩ := p
      exact batchMint_shape s rs us aps es sbs eps rrs rfs s' ids hm
    | error e => exact ⟨rfl, rfl, rfl, fun hx => hx⟩
  | transferOp a b t =>
    simp only [stepIds]
    cases hm : transferC s a b t with
    | ok s' =>
      obtain ⟨m1, m2⟩ := transferC_shape s a b t s' hm
      refine ⟨rfl, ?_, m2, fun hx => ?_⟩
      · show s'.nextTokenId = s.nextTokenId + ([] : List Nat).length
        simp [m1]
      · show s'.nextTokenId ≤ s'.maxSupply
        omega
    | error e => exact ⟨rfl, rfl, rfl, fun hx => hx⟩
  | burnOp c t =>
    simp only [stepIds]
    cases hm : burnC s c t with
    | ok s' =>
      obtain ⟨m1, m2⟩ := burnC_shape s c t s' hm
      refine ⟨rfl, ?_, m2, fun hx => ?_⟩
      · show s'.nextTokenId = s.nextTokenId + ([] : List Nat).length
        simp [m1]
      · show s'.nextTokenId ≤ s'.maxSupply
        omega
    | error e => exact ⟨rfl, rfl, rfl, fun hx => hx⟩
  | redeemOp c t =>
    simp only [stepIds]
    cases hm : redeemC s c t with
    | ok s' =>
      obtain ⟨m1, m2⟩ := redeemC_shape s c t s' hm
      refine ⟨rfl, ?_, m2, fun hx => ?_⟩
      · show s'.nextTokenId = s.nextTokenId + ([] : List Nat).length
        simp [m1]
      · show s'.nextTokenId ≤ s'.maxSupply
        omega
    | error e => exact ⟨rfl, rfl, rfl, fun hx => hx⟩
  | setOpenMintingOp b => exact ⟨rfl, rfl, rfl, fun hx => hx⟩
  | setMerkleRootOp r => exact ⟨rfl, rfl, rfl, fun hx => hx⟩

/-- A transaction sequence allocates exactly the consecutive ids
`nextTokenId+1, …, nextTokenId+n` in order, keeps the configured
maximum, and never pushes the counter past it. -/
theorem runIds_shape (ops : List Op) (s : CState) :
    (runIds s ops).2 = List.range' (s.nextTokenId + 1) (runIds s ops).2.length ∧
    (runIds s ops).1.nextTokenId = s.nextTokenId + (runIds s ops).2.length ∧
    (runIds s ops).1.maxSupply = s.maxSupply ∧
    (s.nextTokenId ≤ s.maxSupply →
      (runIds s ops).1.nextTokenId ≤ (runIds s ops).1.maxSupply) := by
  induction ops generalizing s with
  | nil => exact ⟨rfl, by simp [runIds], by simp [runIds], fun hx => hx⟩
  | cons op ops ih =>
    obtain ⟨p1, p2, p3, p4⟩ := stepIds_shape s op
    obtain ⟨q1, q2, q3, q4⟩ := ih (stepIds s op).1
    have hids : (runIds s (op :: ops)).2
        = (stepIds s op).2 ++ (runIds (stepIds s op).1 ops).2 := rfl
    have hst : (runIds s (op :: ops)).1 = (runIds (stepIds s op).1 ops).1 := rfl
    refine ⟨?_, ?_, by rw [hst, q3, p3], ?_⟩
    · rw [hids, p1, q1, p2]
      have hstart : (stepIds s op).2.length + (s.nextTokenId + 1)
          = s.nextTokenId + (stepIds s op).2.length + 1 := by omega
      rw [show s.nextTokenId + (stepIds s op).2.length + 1
          = s.nextTokenId + 1 + (stepIds s op).2.length from by omega]
      rw [List.range'_append_1]
      congr 1
      all_goals simp only [List.length_append, List.length_range']
    · rw [hst, hids, q2, p2]
      simp only [List.length_append]
      omega
    · intro hx
      rw [hst]
      exact q4 (p4 hx)

/-- A successful `mintTo` allocates exactly the next id. -/
theorem mintTo_shape (s : AState) (rcpt : Nat) (a u : String) (e : Nat)
    (s' : AState) (tid : Nat) (h : mintTo s rcpt a u e = .ok (s', tid)) :
    tid = s.nextTokenId + 1 ∧ s'.nextTokenId = s.nextTokenId + 1 := by
  unfold mintTo at h
  by_cases h1 : s.userAppToken rcpt (appHash a) = 0
  · rw [if_pos h1] at h
    by_cases h2 : rcpt = 0
    · rw [if_pos h2] at h; cases h
    rw [if_neg h2] at h
    by_cases h3 : s.owners (s.nextTokenId + 1) ≠ 0
    · rw [if_pos h3] at h; cases h
    · rw [if_neg h3] at h
      injection h with h
      injection h with hs ht
      subst hs; subst ht
      exact ⟨rfl, rfl⟩
  · rw [if_neg h1] at h; cases h

/-- A successful `AppBoundLicense` transfer keeps the counter. -/
theorem transferA_shape (s : AState) (src dst tid : Nat) (s' : AState)
    (h : transferA s src dst tid = .ok s') : s'.nextTokenId = s.nextTokenId := by
  unfold transferA at h
  by_cases h0 : s.owners tid = 0
  · rw [if_pos h0] at h; cases h
  rw [if_neg h0] at h
  by_cases h1 : src ≠ s.owners tid
  · rw [if_pos h1] at h; cases h
  rw [if_neg h1] at h
  by_cases h2 : dst = 0
  · rw [if_pos h2] at h; cases h
  · rw [if_neg h2] at h
    injection h with hs
    subst hs
    rfl

/-- A successful `AppBoundLicense` burn keeps the counter. -/
theorem burnA_shape (s : AState) (caller tid : Nat) (s' : AState)
    (h : burnA s caller tid = .ok s') : s'.nextTokenId = s.nextTokenId := by
  unfold burnA at h
  by_cases h0 : s.owners tid = 0
  · rw [if_pos h0] at h; cases h
  rw [if_neg h0] at h
  by_cases h1 : caller ≠ s.owners tid
  · rw [if_pos h1] at h; cases h
  · rw [if_neg h1] at h
    injection h with hs
    subst hs
    rfl

/-- Every `AppBoundLicense` transaction allocates exactly the next ids. -/
theorem stepAIds_shape (s : AState) (op : AOp) :
    (stepAIds s op).2 = List.range' (s.nextTokenId + 1) (stepAIds s op).2.length ∧
    (stepAIds s op).1.nextTokenId = s.nextTokenId + (stepAIds s op).2.length := by
  cases op with
  | mintToOp rcpt a u e =>
    simp only [stepAIds]
    cases hm : mintTo s rcpt a u e with
    | ok p =>
      obtain ⟨s', tid⟩ := p
      obtain ⟨m1, m2⟩ := mintTo_shape s rcpt a u e s' tid hm
      refine ⟨?_, ?_⟩
      · show [tid] = List.range' (s.nextTokenId + 1) [tid].length
        simp [m1]
      · show s'.nextTokenId = s.nextTokenId + [tid].length
        simp [m2]
    | error e => exact ⟨rfl, rfl⟩
  | transferOp a b t =>
    simp only [stepAIds]
    cases hm : transferA s a b t with
    | ok s' =>
      refine ⟨rfl, ?_⟩
      show s'.nextTokenId = s.nextTokenId + ([] : List Nat).length
      simp [transferA_shape s a b t s' hm]
    | error e => exact ⟨rfl, rfl⟩
  | burnOp c t =>
    simp only [stepAIds]
    cases hm : burnA s c t with
    | ok s' =>
      refine ⟨rfl, ?_⟩
      show s'.nextTokenId = s.nextTokenId + ([] : List Nat).length
      simp [burnA_shape s c t s' hm]
    | error e => exact ⟨rfl, rfl⟩

/-- An `AppBoundLicense` transaction sequence allocates exactly the
consecutive next ids in order. -/
theorem runAIds_shape (ops : List AOp) (s : AState) :
    (runAIds s ops).2 = List.range' (s.nextTokenId + 1) (runAIds s ops).2.length ∧
    (runAIds s ops).1.nextTokenId = s.nextTokenId + (runAIds s ops).2.length := by
  induction ops generalizing s with
  | nil => exact ⟨rfl, by simp [runAIds]⟩
  | cons op ops ih =>
    obtain ⟨p1, p2⟩ := stepAIds_shape s op
    obtain ⟨q1, q2⟩ := ih (stepAIds s op).1
    have hids : (runAIds s (op :: ops)).2
        = (stepAIds s op).2 ++ (runAIds (stepAIds s op).1 ops).2 := rfl
    have hst : (runAIds s (op :: ops)).1 = (runAIds (stepAIds s op).1 ops).1 := rfl
    refine ⟨?_, ?_⟩
    · rw [hids, p1, q1, p2]
      rw [show s.nextTokenId + (stepAIds s op).2.length + 1
          = s.nextTokenId + 1 + (stepAIds s op).2.length from by omega]
      rw [List.range'_append_1]
      congr 1
      all_goals simp only [List.length_append, List.length_range']
    · rw [hst, hids, q2, p2]
      simp only [List.length_append]
      omega

/-- A reverting `mintTo` transaction leaves the state unchanged. -/
theorem stepA_mint_error (s : AState) (rcpt : Nat) (a u : String) (e : Nat)
    (er : AErr) (h : mintTo s rcpt a u e = .error er) :
    stepA s (.mintToOp rcpt a u e) = s := by
  simp only [stepA, stepAIds]
  rw [h]

/-- Claim C1, counterexample.  Reachable trace on `CollectibleLicenseNFT`:
mint token 1 for app "x" to address 1, mint token 2 for app "x" to
address 2, then transfer token 1 to address 2.  The transfer overwrites
the destination index slot, so afterwards token 2 is minted, non-burned
and owned by address 2 for app "x", yet the only index entry for
(address 2, hash "x") is token 1 — the index does not contain one live
entry per (owner, application) pair as the claim states. -/
theorem C1_counterexample :
    (runC (initC 10) [Op.mintOp 1 "u" "x" 0 false false 0 0,
        Op.mintOp 2 "u" "x" 0 false false 0 0, Op.transferOp 1 2 1]).owners 2 = 2 ∧
    ((runC (initC 10) [Op.mintOp 1 "u" "x" 0 false false 0 0,
        Op.mintOp 2 "u" "x" 0 false false 0 0, Op.transferOp 1 2 1]).licenses 2).appId
      = "x" ∧
    (runC (initC 10) [Op.mintOp 1 "u" "x" 0 false false 0 0,
        Op.mintOp 2 "u" "x" 0 false false 0 0, Op.transferOp 1 2 1]).userAppToken 2
        (appHash "x") = 1 := by
  decide

/-- Claim C2, counterexample.  On `AppBoundLicense`, `mintTo` with the
empty application id succeeds and indexes token 1 under the digest of
the empty string, so the lookup for (wallet 1, hash "") is the nonzero
token 1 whose expiry is 0; the claim then demands a credential with
token id 1, but the handler rejects the request (the empty `appId` is
JS-falsy and hits the 400 guard before any license logic). -/
theorem C2_counterexample :
    (stepA initA (AOp.mintToOp 1 "" "u" 0)).userAppToken 1 (appHash "") = 1 ∧
    ((stepA initA (AOp.mintToOp 1 "" "u" 0)).licenses 1).expiry = 0 ∧
    issueAccess (stepA initA (AOp.mintToOp 1 "" "u" 0)) 1 "" 50
      = .error .badRequest := by
  decide

/-- Claim C3, counterexample.  Reachable trace: mint token 1 (app "x",
address 1), mint token 2 (app "x", address 2), transfer token 1 to
address 2 (overwriting the destination slot), then address 2 burns
token 1 (which deletes the slot).  Address 2 still holds the live
token 2 for app "x", yet a further `mintCollectible` for (address 2,
app "x") succeeds with token 3 instead of failing `DuplicateLicense`. -/
theorem C3_counterexample :
    (runC (initC 10) [Op.mintOp 1 "u" "x" 0 false false 0 0,
        Op.mintOp 2 "u" "x" 0 false false 0 0, Op.transferOp 1 2 1,
        Op.burnOp 2 1]).owners 2 = 2 ∧
    ((runC (initC 10) [Op.mintOp 1 "u" "x" 0 false false 0 0,
        Op.mintOp 2 "u" "x" 0 false false 0 0, Op.transferOp 1 2 1,
        Op.burnOp 2 1]).licenses 2).appId = "x" ∧
    (mintCollectible (runC (initC 10) [Op.mintOp 1 "u" "x" 0 false false 0 0,
        Op.mintOp 2 "u" "x" 0 false false 0 0, Op.transferOp 1 2 1,
        Op.burnOp 2 1]) 2 "u" "x" 0 false false 0 0).isOk = true := by
  decide

/-- Claim C4, counterexample.  Reachable trace as for C1; afterwards
address 2 owns token 2 (app "x") while its index slot for "x" holds
token 1.  Transferring token 2 from address 2 to address 1 succeeds,
but the source slot (address 2, hash "x") is not cleared: it still
holds token 1, contradicting the claim that every successful transfer
clears the slot (the code clears it only when it holds the transferred
id). -/
theorem C4_counterexample :
    (transferC (runC (initC 10) [Op.mintOp 1 "u" "x" 0 false false 0 0,
        Op.mintOp 2 "u" "x" 0 false false 0 0, Op.transferOp 1 2 1]) 2 1 2).isOk
      = true ∧
    (runC (initC 10) [Op.mintOp 1 "u" "x" 0 false false 0 0,
        Op.mintOp 2 "u" "x" 0 false false 0 0, Op.transferOp 1 2 1,
        Op.transferOp 2 1 2]).userAppToken 2 (appHash "x") = 1 := by
  decide

/-- Claim C5, counterexample.  Token 1 is minted soulbound to address 1;
the transfer attempt `transferFrom(2, 3, 1)` by non-owner address 2
(both addresses nonzero) fails, but with the owner check
(`NotOwner`) rather than the `SoulboundLocked` error the claim
demands for every transfer attempt. -/
theorem C5_counterexample :
    ((runC (initC 10) [Op.mintOp 1 "u" "x" 0 true false 0 0]).licenses 1).soulbound
      = true ∧
    errC (transferC (runC (initC 10) [Op.mintOp 1 "u" "x" 0 true false 0 0]) 2 3 1)
      = some .notOwner := by
  decide

/-- Claim C8, counterexample.  With configured maximum supply 1, one
mint exhausts capacity (`nextTokenId = 1 = MAX_SUPPLY`); a subsequent
`openMint` attempt while open minting is disabled fails with the
open-minting guard, not with `CapacityExceeded` as the claim demands
for every further mint attempt (the `openMinting` check precedes the
capacity check). -/
theorem C8_counterexample :
    (runC (initC 1) [Op.mintOp 1 "u" "x" 0 false false 0 0]).nextTokenId = 1 ∧
    (runC (initC 1) [Op.mintOp 1 "u" "x" 0 false false 0 0]).maxSupply = 1 ∧
    errC (openMint (runC (initC 1) [Op.mintOp 1 "u" "x" 0 false false 0 0]) 5 "u" "y" 0
        false false []) = some .openMintDisabled := by
  decide

/-- Claim C2 (amended to nonempty application ids, which is all the 400
guard lets through): for every state, wallet, nonempty application id
and time, `issueAccess` returns `NoLicense` when the index lookup is 0;
returns `LicenseExpired` when the looked-up token has a nonzero expiry
strictly in the past; and otherwise returns a credential whose embedded
token id equals the index lookup. -/
theorem C2_issueAccess_cases (s : AState) (wallet : Nat) (appId : String) (now : Nat)
    (hne : appId ≠ "") :
    (s.userAppToken wallet (appHash appId) = 0 →
      issueAccess s wallet appId now = .error .noLicense) ∧
    (s.userAppToken wallet (appHash appId) ≠ 0 →
      (s.licenses (s.userAppToken wallet (appHash appId))).expiry ≠ 0 →
      (s.licenses (s.userAppToken wallet (appHash appId))).expiry < now →
      issueAccess s wallet appId now = .error .licenseExpired) ∧
    (s.userAppToken wallet (appHash appId) ≠ 0 →
      ((s.licenses (s.userAppToken wallet (appHash appId))).expiry = 0 ∨
        now ≤ (s.licenses (s.userAppToken wallet (appHash appId))).expiry) →
      issueAccess s wallet appId now
        = .ok ⟨wallet, appId, s.userAppToken wallet (appHash appId)⟩) := by
  refine ⟨fun h0 => ?_, fun h1 h2 h3 => ?_, fun h1 h2 => ?_⟩
  · simp [issueAccess, hne, h0]
  · have hck : (checkLicense s wallet appId).2
        = (s.licenses (s.userAppToken wallet (appHash appId))).expiry := by
      simp [checkLicense, h1]
    simp [issueAccess, hne, h1, hck, h2, h3]
  · have hck : (checkLicense s wallet appId).2
        = (s.licenses (s.userAppToken wallet (appHash appId))).expiry := by
      simp [checkLicense, h1]
    rcases h2 with h2 | h2
    · simp [issueAccess, hne, h1, hck, h2]
    · simp [issueAccess, hne, h1, hck, Nat.not_lt.mpr h2]

/-- Claim C4 (amended): a successful transfer of a token with a
non-empty application id overwrites the destination slot with the token
id unconditionally (an occupied destination slot does not make the
transfer fail), and clears the source slot only when that slot
currently holds the transferred id, leaving it untouched otherwise;
transfers of tokens with an empty application id leave the index
unchanged.  Success needs only ownership by `src`, a nonzero
destination and a non-soulbound token — no condition on the
destination slot. -/
theorem C4_transfer_index_rewrite (s : CState) (src dst tid : Nat)
    (hown : s.owners tid = src) (hsrc : src ≠ 0) (hdst : dst ≠ 0)
    (hsb : (s.licenses tid).soulbound = false) :
    ∃ s', transferC s src dst tid = .ok s' ∧
      s'.owners tid = dst ∧
      ((s.licenses tid).appId = "" →
        ∀ o k, s'.userAppToken o k = s.userAppToken o k) ∧
      ((s.licenses tid).appId ≠ "" → ∀ o k,
        s'.userAppToken o k =
          if o = dst ∧ k = appHash (s.licenses tid).appId then tid
          else if o = src ∧ k = appHash (s.licenses tid).appId ∧
              s.userAppToken src (appHash (s.licenses tid).appId) = tid then 0
          else s.userAppToken o k) := by
  have h0 : ¬ s.owners tid = 0 := by rw [hown]; exact hsrc
  have h1 : ¬ src ≠ s.owners tid := by rw [hown]; exact fun h => h rfl
  have hsb' : ¬ (s.licenses tid).soulbound = true := by rw [hsb]; exact Bool.false_ne_true
  by_cases ha : (s.licenses tid).appId = ""
  · refine ⟨{ s with owners := fun t => if t = tid then dst else s.owners t }, ?_,
      by simp, fun _ o k => rfl, fun h => absurd ha h⟩
    unfold transferC
    rw [if_neg h0, if_neg h1, if_neg hdst, if_neg hsb', if_pos ha]
  · refine ⟨{ s with
        userAppToken := fun o k =>
          if o = dst ∧ k = appHash (s.licenses tid).appId then tid
          else if o = src ∧ k = appHash (s.licenses tid).appId ∧
              s.userAppToken src (appHash (s.licenses tid).appId) = tid then 0
          else s.userAppToken o k
        owners := fun t => if t = tid then dst else s.owners t }, ?_,
      by simp, fun h => absurd h ha, fun _ o k => rfl⟩
    unfold transferC
    rw [if_neg h0, if_neg h1, if_neg hdst, if_neg hsb', if_neg ha]

/-- Claim C5 (amended): for a token whose license record is flagged
soulbound, a transfer attempt by the token's current owner (to a
nonzero address) fails with `SoulboundLocked`, and every transfer
attempt between nonzero addresses fails (a non-owner attempt fails
with the owner check instead) and leaves the whole state — registry
and index included — unchanged. -/
theorem C5_soulbound_transfer_blocked (s : CState) (src dst tid : Nat) :
    ((s.licenses tid).soulbound = true → s.owners tid = src → src ≠ 0 → dst ≠ 0 →
      transferC s src dst tid = .error .soulboundLocked ∧
      stepC s (.transferOp src dst tid) = s) ∧
    ((s.licenses tid).soulbound = true → src ≠ 0 → dst ≠ 0 →
      (transferC s src dst tid).isOk = false ∧
      stepC s (.transferOp src dst tid) = s) := by
  constructor
  · intro hsb hown hsrc hdst
    have h0 : ¬ s.owners tid = 0 := by rw [hown]; exact hsrc
    have h1 : ¬ src ≠ s.owners tid := by rw [hown]; exact fun h => h rfl
    have he : transferC s src dst tid = .error .soulboundLocked := by
      unfold transferC
      rw [if_neg h0, if_neg h1, if_neg hdst, if_pos hsb]
    exact ⟨he, stepC_transfer_error _ _ _ _ _ he⟩
  · intro hsb hsrc hdst
    by_cases h0 : s.owners tid = 0
    · have he : transferC s src dst tid = .error .invalidToken := by
        unfold transferC; rw [if_pos h0]
      exact ⟨by rw [he]; rfl, stepC_transfer_error _ _ _ _ _ he⟩
    · by_cases h1 : src = s.owners tid
      · have he : transferC s src dst tid = .error .soulboundLocked := by
          unfold transferC
          rw [if_neg h0, if_neg (by rw [h1]; exact fun h => h rfl), if_neg hdst,
            if_pos hsb]
        exact ⟨by rw [he]; rfl, stepC_transfer_error _ _ _ _ _ he⟩
      · have he : transferC s src dst tid = .error .notOwner := by
          unfold transferC; rw [if_neg h0, if_pos h1]
        exact ⟨by rw [he]; rfl, stepC_transfer_error _ _ _ _ _ he⟩

/-- Claim C6: on an existing token, a redeem call by the current owner
of an ephemeral, unredeemed token succeeds and sets the redeemed flag;
an immediately following second redeem call on the same token fails
`AlreadyRedeemed`; a redeem call by a non-owner fails `NotOwner`; an
owner's redeem call on a non-ephemeral token fails `NotEphemeral`; each
failing call leaves the whole state, the redeemed flag included,
unchanged. -/
theorem C6_redeem_lifecycle (s : CState) (caller tid : Nat) :
    (s.owners tid ≠ 0 → (s.licenses tid).ephemeral = true → s.redeemed tid = false →
      ∃ s', redeemC s (s.owners tid) tid = .ok s' ∧ s'.redeemed tid = true ∧
        redeemC s' (s.owners tid) tid = .error .alreadyRedeemed ∧
        stepC s' (.redeemOp (s.owners tid) tid) = s') ∧
    (s.owners tid ≠ 0 → caller ≠ s.owners tid →
      redeemC s caller tid = .error .notOwner ∧
      stepC s (.redeemOp caller tid) = s) ∧
    (s.owners tid ≠ 0 → (s.licenses tid).ephemeral = false →
      redeemC s (s.owners tid) tid = .error .notEphemeral ∧
      stepC s (.redeemOp (s.owners tid) tid) = s) := by
  refine ⟨fun h0 heph hred => ?_, fun h0 hc => ?_, fun h0 heph => ?_⟩
  · have hok : redeemC s (s.owners tid) tid
        = .ok { s with redeemed := fun t => if t = tid then true else s.redeemed t
                       events := s.events ++ [Ev.redeemedEv (s.owners tid) tid] } := by
      unfold redeemC
      rw [if_neg h0, if_neg (fun h => h rfl),
        if_neg (by rw [heph]; exact fun h => h rfl), if_neg (by rw [hred]; exact
          Bool.false_ne_true)]
    have he : redeemC
        { s with redeemed := fun t => if t = tid then true else s.redeemed t
                 events := s.events ++ [Ev.redeemedEv (s.owners tid) tid] }
        (s.owners tid) tid = .error .alreadyRedeemed := by
      simp [redeemC, h0, heph]
    exact ⟨_, hok, by simp, he, stepC_redeem_error _ _ _ _ he⟩
  · have he : redeemC s caller tid = .error .notOwner := by
      unfold redeemC; rw [if_neg h0, if_pos hc]
    exact ⟨he, stepC_redeem_error _ _ _ _ he⟩
  · have he : redeemC s (s.owners tid) tid = .error .notEphemeral := by
      unfold redeemC
      rw [if_neg h0, if_neg (fun h => h rfl), if_pos (by rw [heph]; exact
        Bool.false_ne_true)]
    exact ⟨he, stepC_redeem_error _ _ _ _ he⟩

/-- Claim C9: a `batchMint` call whose eight argument lists do not all
have the same length fails with the arity guard before any mutation:
the call reverts with `ArityMismatch` and the transaction leaves the
state unchanged. -/
theorem C9_batch_arity_guard (s : CState) (rs : List Nat) (us aps : List String)
    (es : List Nat) (sbs eps : List Bool) (rrs rfs : List Nat)
    (h : ¬ (rs.length = us.length ∧ us.length = aps.length ∧
        aps.length = es.length ∧ es.length = sbs.length ∧
        sbs.length = eps.length ∧ eps.length = rrs.length ∧
        rrs.length = rfs.length)) :
    batchMint s rs us aps es sbs eps rrs rfs = .error .arityMismatch ∧
    stepC s (.batchMintOp rs us aps es sbs eps rrs rfs) = s := by
  have hb : batchMint s rs us aps es sbs eps rrs rfs = .error .arityMismatch := by
    unfold batchMint; rw [if_neg h]
  exact ⟨hb, stepC_batch_error _ _ _ _ _ _ _ _ _ _ hb⟩

/-- Claim C1 (amended): in every reachable state of
`CollectibleLicenseNFT`, each (owner, application) slot holds at most
one token id (the index is a map), and every nonzero index entry
references a token that currently exists, has that owner, and has a
non-empty application id whose digest is the entry's key — no dangling
entries.  The other half of the original claim (exactly one entry per
live token) fails: after a transfer into an occupied slot, or a burn
through an overwritten slot, a live token can lack its index entry
(see the counterexample). -/
theorem C1_index_no_dangling (m : Nat) (ops : List Op) (o : Nat) (k : String)
    (h : (runC (initC m) ops).userAppToken o k ≠ 0) :
    o ≠ 0 ∧
    (runC (initC m) ops).owners ((runC (initC m) ops).userAppToken o k) = o ∧
    (runC (initC m) ops).owners ((runC (initC m) ops).userAppToken o k) ≠ 0 ∧
    ((runC (initC m) ops).licenses
      ((runC (initC m) ops).userAppToken o k)).appId ≠ "" ∧
    appHash ((runC (initC m) ops).licenses
      ((runC (initC m) ops).userAppToken o k)).appId = k := by
  obtain ⟨invA, invB⟩ := runC_inv ops (initC m) (initC_inv m)
  obtain ⟨ho, hw, hne, hh, hle⟩ := invB o k h
  refine ⟨ho, hw, ?_, hne, hh⟩
  rw [hw]
  exact ho

/-- Claim C3 (amended): a mint is rejected with `DuplicateLicense`, and
the state left unchanged, exactly when the ownership-index slot
`(recipient, hash(appId))` is occupied — for `mintTo` unconditionally
(its duplicate check runs first), and for `mintCollectible` with a
non-empty application id when the capacity guard passes and the
recipient is nonzero.  The check reads the index slot, not the actual
holdings: an owner of a live token whose slot was cleared through the
overwrite/burn path can mint a second live token for the same
application (see the counterexample). -/
theorem C3_duplicate_slot_rejected (m : Nat) (ops : List Op) (rcpt : Nat)
    (u a : String) (e : Nat) (sb ep : Bool) (rr rf : Nat)
    (sA : AState) (aUri : String) (aExp : Nat) :
    (a ≠ "" → rcpt ≠ 0 →
      (runC (initC m) ops).nextTokenId < (runC (initC m) ops).maxSupply →
      (runC (initC m) ops).userAppToken rcpt (appHash a) ≠ 0 →
      mintCollectible (runC (initC m) ops) rcpt u a e sb ep rr rf
        = .error .duplicateLicense ∧
      stepC (runC (initC m) ops) (.mintOp rcpt u a e sb ep rr rf)
        = runC (initC m) ops) ∧
    (sA.userAppToken rcpt (appHash a) ≠ 0 →
      mintTo sA rcpt a aUri aExp = .error .duplicateLicense ∧
      stepA sA (.mintToOp rcpt a aUri aExp) = sA) := by
  obtain ⟨invA, invB⟩ := runC_inv ops (initC m) (initC_inv m)
  have hfresh : (runC (initC m) ops).owners ((runC (initC m) ops).nextTokenId + 1)
      = 0 := by
    by_contra hx
    have := invA _ hx
    omega
  constructor
  · intro ha hrcpt hcap hdup
    have hmc : mintCollectible (runC (initC m) ops) rcpt u a e sb ep rr rf
        = .error .duplicateLicense := by
      unfold mintCollectible mintCore
      rw [if_pos hcap, if_neg hrcpt, if_neg (fun hx => hx hfresh), if_neg ha,
        if_neg hdup]
    exact ⟨hmc, stepC_mint_error _ _ _ _ _ _ _ _ _ _ hmc⟩
  · intro hdup
    have hmt : mintTo sA rcpt a aUri aExp = .error .duplicateLicense := by
      unfold mintTo
      rw [if_neg hdup]
    exact ⟨hmt, stepA_mint_error _ _ _ _ _ _ hmt⟩

/-- Claim C7: on both contracts, any transaction sequence from the
deployment state allocates token ids as the consecutive sequence
`[1, 2, …, k]`: each successful mint returns the previous id plus one,
id 0 is never assigned to any token, and ids are never reused after a
burn (the allocated ids are pairwise distinct and the counter never
decreases). -/
theorem C7_token_ids_sequential (m : Nat) (ops : List Op) (opsA : List AOp) :
    (runIds (initC m) ops).2 = List.range' 1 (runIds (initC m) ops).2.length ∧
    0 ∉ (runIds (initC m) ops).2 ∧
    (runIds (initC m) ops).2.Nodup ∧
    (runC (initC m) ops).owners 0 = 0 ∧
    (runAIds initA opsA).2 = List.range' 1 (runAIds initA opsA).2.length := by
  obtain ⟨r1, r2, r3, r4⟩ := runIds_shape ops (initC m)
  obtain ⟨a1, a2⟩ := runAIds_shape opsA initA
  have h0 : (initC m).nextTokenId + 1 = 1 := rfl
  rw [h0] at r1
  have hA0 : initA.nextTokenId + 1 = 1 := rfl
  rw [hA0] at a1
  refine ⟨r1, ?_, ?_, ?_, a1⟩
  · intro hmem
    rw [r1, List.mem_range'_1] at hmem
    omega
  · rw [r1]
    exact List.nodup_range' 1 _
  · obtain ⟨invA, invB⟩ := runC_inv ops (initC m) (initC_inv m)
    by_contra hx
    have := invA 0 hx
    omega

/-- Claim C8 (amended): once the counter has reached the configured
maximum supply, `mintCollectible` always fails with `CapacityExceeded`,
and `openMint` fails with `CapacityExceeded` whenever open minting is
enabled (when it is disabled the open-minting guard fires first, with
its own error); in both cases the state is unchanged, and along every
reachable execution the number of allocated ids never exceeds the
configured maximum supply. -/
theorem C8_capacity_guard (s : CState) (rcpt c : Nat) (u a : String) (e : Nat)
    (sb ep : Bool) (rr rf : Nat) (pf : List Nat) (m : Nat) (ops : List Op) :
    (s.maxSupply ≤ s.nextTokenId →
      mintCollectible s rcpt u a e sb ep rr rf = .error .capacityExceeded ∧
      stepC s (.mintOp rcpt u a e sb ep rr rf) = s) ∧
    (s.maxSupply ≤ s.nextTokenId → s.openMinting = true →
      openMint s c u a e sb ep pf = .error .capacityExceeded ∧
      stepC s (.openMintOp c u a e sb ep pf) = s) ∧
    (s.openMinting = false →
      openMint s c u a e sb ep pf = .error .openMintDisabled ∧
      stepC s (.openMintOp c u a e sb ep pf) = s) ∧
    (runC (initC m) ops).nextTokenId ≤ m := by
  refine ⟨fun hcap => ?_, fun hcap hopen => ?_, fun hopen => ?_, ?_⟩
  · have hmc : mintCollectible s rcpt u a e sb ep rr rf
        = .error .capacityExceeded := by
      unfold mintCollectible
      rw [if_neg (by omega)]
    exact ⟨hmc, stepC_mint_error _ _ _ _ _ _ _ _ _ _ hmc⟩
  · have hom : openMint s c u a e sb ep pf = .error .capacityExceeded := by
      unfold openMint
      rw [if_neg (by rw [hopen]; exact fun hx => hx rfl), if_pos (by omega)]
    exact ⟨hom, stepC_open_error _ _ _ _ _ _ _ _ _ hom⟩
  · have hom : openMint s c u a e sb ep pf = .error .openMintDisabled := by
      unfold openMint
      rw [if_pos (by rw [hopen]; exact Bool.false_ne_true)]
    exact ⟨hom, stepC_open_error _ _ _ _ _ _ _ _ _ hom⟩
  · obtain ⟨r1, r2, r3, r4⟩ := runIds_shape ops (initC m)
    have hc := r4 (Nat.zero_le m)
    have hm : (runIds (initC m) ops).1.maxSupply = m := r3
    show (runIds (initC m) ops).1.nextTokenId ≤ m
    omega

/-- With capacity left and a fresh next id, an empty-app-id
`mintCollectible` succeeds and touches only the owner map and the
counter. -/
theorem mintCollectible_empty (s : CState) (rcpt : Nat) (u : String) (e : Nat)
    (sb ep : Bool) (rr rf : Nat) (h1 : rcpt ≠ 0) (h2 : s.nextTokenId < s.maxSupply)
    (h3 : s.owners (s.nextTokenId + 1) = 0) :
    mintCollectible s rcpt u "" e sb ep rr rf
      = .ok ({ s with
                owners := fun t => if t = s.nextTokenId + 1 then rcpt else s.owners t
                nextTokenId := s.nextTokenId + 1 }, s.nextTokenId + 1) := by
  unfold mintCollectible mintCore
  rw [if_pos h2, if_neg h1, if_neg (fun hx => hx h3), if_pos rfl]

/-- With open minting enabled, no allowlist root, capacity left and a
fresh next id, an empty-app-id `openMint` succeeds and touches only the
owner map and the counter. -/
theorem openMint_empty (s : CState) (c : Nat) (u : String) (e : Nat)
    (sb ep : Bool) (pf : List Nat) (h0 : s.openMinting = true)
    (hroot : s.merkleRoot = 0) (h1 : c ≠ 0) (h2 : s.nextTokenId < s.maxSupply)
    (h3 : s.owners (s.nextTokenId + 1) = 0) :
    openMint s c u "" e sb ep pf
      = .ok ({ s with
                owners := fun t => if t = s.nextTokenId + 1 then c else s.owners t
                nextTokenId := s.nextTokenId + 1 }, s.nextTokenId + 1) := by
  unfold openMint mintCore
  rw [if_neg (by rw [h0]; exact fun hx => hx rfl), if_neg (fun hx => hx h2),
    if_neg (fun hx => hx.1 hroot), if_neg h1, if_neg (fun hx => hx h3), if_pos rfl]

/-- Iterating `n` empty-app-id mints succeeds whenever `n` ids of
capacity remain, raises the counter by `n`, assigns the `n` fresh ids to
the recipient, and leaves index, license records and events untouched. -/
theorem emptyMints_ok (n : Nat) (s : CState) (rcpt : Nat) (u : String) (e : Nat)
    (sb ep : Bool) (rr rf : Nat) (h1 : rcpt ≠ 0) (inv : InvC s)
    (hcap : s.nextTokenId + n ≤ s.maxSupply) :
    ∃ s', emptyMints rcpt u e sb ep rr rf s n = .ok s' ∧
      s'.nextTokenId = s.nextTokenId + n ∧
      s'.maxSupply = s.maxSupply ∧
      s'.userAppToken = s.userAppToken ∧
      s'.licenses = s.licenses ∧
      s'.events = s.events ∧
      (∀ t, t ≤ s.nextTokenId → s'.owners t = s.owners t) ∧
      (∀ i, 0 < i → i ≤ n → s'.owners (s.nextTokenId + i) = rcpt) := by
  induction n generalizing s with
  | zero =>
    exact ⟨s, rfl, by omega, rfl, rfl, rfl, rfl, fun t ht => rfl,
      fun i hi hi' => by omega⟩
  | succ n ih =>
    have hfresh : s.owners (s.nextTokenId + 1) = 0 := by
      by_contra hx
      have := inv.1 _ hx
      omega
    have hcap1 : s.nextTokenId < s.maxSupply := by omega
    have hstep := mintCollectible_empty s rcpt u e sb ep rr rf h1 hcap1 hfresh
    have inv1 : InvC { s with
        owners := fun t => if t = s.nextTokenId + 1 then rcpt else s.owners t
        nextTokenId := s.nextTokenId + 1 } :=
      mintCollectible_inv s rcpt u "" e sb ep rr rf _ _ hstep inv
    have hcap2 : ({ s with
        owners := fun t => if t = s.nextTokenId + 1 then rcpt else s.owners t
        nextTokenId := s.nextTokenId + 1 } : CState).nextTokenId + n
        ≤ ({ s with
        owners := fun t => if t = s.nextTokenId + 1 then rcpt else s.owners t
        nextTokenId := s.nextTokenId + 1 } : CState).maxSupply := by
      show s.nextTokenId + 1 + n ≤ s.maxSupply
      omega
    obtain ⟨s', hrun, g1, g2, g3, g4, g5, g6, g7⟩ := ih _ inv1 hcap2
    refine ⟨s', ?_, ?_, ?_, ?_, ?_, ?_, ?_, ?_⟩
    · show emptyMints rcpt u e sb ep rr rf s (n + 1) = .ok s'
      unfold emptyMints
      rw [hstep]
      exact hrun
    · rw [g1]
      show s.nextTokenId + 1 + n = s.nextTokenId + (n + 1)
      omega
    · rw [g2]
    · rw [g3]
    · rw [g4]
    · rw [g5]
    · intro t ht
      rw [g6 t (by show t ≤ s.nextTokenId + 1; omega)]
      show (if t = s.nextTokenId + 1 then rcpt else s.owners t) = s.owners t
      rw [if_neg (by omega)]
    · intro i hi hi'
      by_cases hone : i = 1
      · subst hone
        rw [g6 (s.nextTokenId + 1) (Nat.le_refl _)]
        show (if s.nextTokenId + 1 = s.nextTokenId + 1 then rcpt
          else s.owners (s.nextTokenId + 1)) = rcpt
        rw [if_pos rfl]
      · have hj : s.nextTokenId + i
            = ({ s with
                owners := fun t => if t = s.nextTokenId + 1 then rcpt else s.owners t
                nextTokenId := s.nextTokenId + 1 } : CState).nextTokenId + (i - 1) := by
          show s.nextTokenId + i = s.nextTokenId + 1 + (i - 1)
          omega
        rw [hj]
        exact g7 (i - 1) (by omega) (by omega)

/-- Claim C10: in any reachable state with capacity left, a mint via
`mintCollectible` (nonzero recipient) or `openMint` (open minting
enabled, no allowlist root) whose application id is the empty string
succeeds with no duplicate-license check, writes no license record, no
index entry, and emits no `LicenseMinted` event; iterating such mints
lets a single owner accumulate arbitrarily many tokens (up to capacity),
all invisible to the index that `checkLicense` and `issueAccess` read. -/
theorem C10_empty_appId_mint (m : Nat) (ops : List Op) (rcpt c : Nat) (u : String)
    (e : Nat) (sb ep : Bool) (rr rf : Nat) (pf : List Nat) (n : Nat) :
    (rcpt ≠ 0 → (runC (initC m) ops).nextTokenId < m →
      ∃ s', mintCollectible (runC (initC m) ops) rcpt u "" e sb ep rr rf
          = .ok (s', (runC (initC m) ops).nextTokenId + 1) ∧
        s'.owners ((runC (initC m) ops).nextTokenId + 1) = rcpt ∧
        s'.licenses = (runC (initC m) ops).licenses ∧
        s'.userAppToken = (runC (initC m) ops).userAppToken ∧
        s'.events = (runC (initC m) ops).events) ∧
    (c ≠ 0 → (runC (initC m) ops).openMinting = true →
      (runC (initC m) ops).merkleRoot = 0 →
      (runC (initC m) ops).nextTokenId < m →
      ∃ s', openMint (runC (initC m) ops) c u "" e sb ep pf
          = .ok (s', (runC (initC m) ops).nextTokenId + 1) ∧
        s'.owners ((runC (initC m) ops).nextTokenId + 1) = c ∧
        s'.licenses = (runC (initC m) ops).licenses ∧
        s'.userAppToken = (runC (initC m) ops).userAppToken ∧
        s'.events = (runC (initC m) ops).events) ∧
    (rcpt ≠ 0 → (runC (initC m) ops).nextTokenId + n ≤ m →
      ∃ s', emptyMints rcpt u e sb ep rr rf (runC (initC m) ops) n = .ok s' ∧
        s'.nextTokenId = (runC (initC m) ops).nextTokenId + n ∧
        s'.userAppToken = (runC (initC m) ops).userAppToken ∧
        s'.licenses = (runC (initC m) ops).licenses ∧
        s'.events = (runC (initC m) ops).events ∧
        (∀ i, 0 < i → i ≤ n →
          s'.owners ((runC (initC m) ops).nextTokenId + i) = rcpt)) := by
  have inv := runC_inv ops (initC m) (initC_inv m)
  obtain ⟨r1, r2, r3, r4⟩ := runIds_shape ops (initC m)
  have hmax : (runC (initC m) ops).maxSupply = m := r3
  have hfresh : (runC (initC m) ops).owners ((runC (initC m) ops).nextTokenId + 1)
      = 0 := by
    by_contra hx
    have := inv.1 _ hx
    omega
  refine ⟨fun hr hcap => ?_, fun hc hopen hroot hcap => ?_, fun hr hcap => ?_⟩
  · have hstep := mintCollectible_empty (runC (initC m) ops) rcpt u e sb ep rr rf
      hr (by omega) hfresh
    refine ⟨_, hstep, ?_, rfl, rfl, rfl⟩
    show (if (runC (initC m) ops).nextTokenId + 1
        = (runC (initC m) ops).nextTokenId + 1 then rcpt
      else (runC (initC m) ops).owners ((runC (initC m) ops).nextTokenId + 1)) = rcpt
    rw [if_pos rfl]
  · have hstep := openMint_empty (runC (initC m) ops) c u e sb ep pf hopen hroot
      hc (by omega) hfresh
    refine ⟨_, hstep, ?_, rfl, rfl, rfl⟩
    show (if (runC (initC m) ops).nextTokenId + 1
        = (runC (initC m) ops).nextTokenId + 1 then c
      else (runC (initC m) ops).owners ((runC (initC m) ops).nextTokenId + 1)) = c
    rw [if_pos rfl]
  · obtain ⟨s', hrun, g1, g2, g3, g4, g5, g6, g7⟩ :=
      emptyMints_ok n (runC (initC m) ops) rcpt u e sb ep rr rf hr inv (by omega)
    exact ⟨s', hrun, g1, g3, g4, g5, g7⟩

/-- Witness for C1 at a concrete trace: after minting token 1 for app
"x" to address 1, the index entry for (1, hash "x") references an
existing token owned by address 1. -/
theorem C1_witness :
    (runC (initC 5) [Op.mintOp 1 "u" "x" 0 false false 0 0]).owners
      ((runC (initC 5) [Op.mintOp 1 "u" "x" 0 false false 0 0]).userAppToken 1
        (appHash "x")) = 1 :=
  (C1_index_no_dangling 5 [Op.mintOp 1 "u" "x" 0 false false 0 0] 1 (appHash "x")
    (by decide)).2.1

/-- Witness for C2 at a concrete state: a live perpetual license yields
a credential embedding the looked-up token id 1. -/
theorem C2_witness :
    issueAccess (stepA initA (AOp.mintToOp 1 "demo" "u" 0)) 1 "demo" 50
      = .ok ⟨1, "demo", 1⟩ := by
  have h := ((C2_issueAccess_cases (stepA initA (AOp.mintToOp 1 "demo" "u" 0)) 1
    "demo" 50 (by decide)).2.2) (by decide) (Or.inl (by decide))
  exact h.trans (by decide)

/-- Witness for C3 at a concrete state: minting again for an occupied
slot fails with `DuplicateLicense`. -/
theorem C3_witness :
    mintCollectible (runC (initC 5) [Op.mintOp 1 "u" "x" 0 false false 0 0]) 1 "u"
      "x" 0 false false 0 0 = .error .duplicateLicense :=
  ((C3_duplicate_slot_rejected 5 [Op.mintOp 1 "u" "x" 0 false false 0 0] 1 "u" "x"
      0 false false 0 0 initA "u" 0).1 (by decide) (by decide) (by decide)
      (by decide)).1

/-- Witness for C4 at a concrete state: the owner's transfer of token 1
to address 2 succeeds. -/
theorem C4_witness :
    (transferC (runC (initC 5) [Op.mintOp 1 "u" "x" 0 false false 0 0]) 1 2 1).isOk
      = true := by
  obtain ⟨s', h1, -, -, -⟩ := C4_transfer_index_rewrite
    (runC (initC 5) [Op.mintOp 1 "u" "x" 0 false false 0 0]) 1 2 1
    (by decide) (by decide) (by decide) (by decide)
  rw [h1]
  rfl

/-- Witness for C5 at a concrete state: the owner's transfer attempt on
a soulbound token fails with `SoulboundLocked`. -/
theorem C5_witness :
    transferC (runC (initC 5) [Op.mintOp 1 "u" "x" 0 true false 0 0]) 1 2 1
      = .error .soulboundLocked :=
  ((C5_soulbound_transfer_blocked
      (runC (initC 5) [Op.mintOp 1 "u" "x" 0 true false 0 0]) 1 2 1).1
    (by decide) (by decide) (by decide) (by decide)).1

/-- Witness for C6 at a concrete state: the owner's first redeem of an
ephemeral token succeeds. -/
theorem C6_witness :
    (redeemC (runC (initC 5) [Op.mintOp 1 "u" "x" 0 false true 0 0])
      ((runC (initC 5) [Op.mintOp 1 "u" "x" 0 false true 0 0]).owners 1) 1).isOk
      = true := by
  obtain ⟨s', hok, -, -, -⟩ :=
    (C6_redeem_lifecycle (runC (initC 5) [Op.mintOp 1 "u" "x" 0 false true 0 0])
      2 1).1 (by decide) (by decide) (by decide)
  rw [hok]
  rfl

/-- Witness for C7 at a concrete trace: two mints allocate ids
`[1, 2]`. -/
theorem C7_witness :
    (runIds (initC 5) [Op.mintOp 1 "u" "x" 0 false false 0 0,
      Op.mintOp 2 "u" "y" 0 false false 0 0]).2 = [1, 2] :=
  ((C7_token_ids_sequential 5 [Op.mintOp 1 "u" "x" 0 false false 0 0,
    Op.mintOp 2 "u" "y" 0 false false 0 0] []).1).trans (by decide)

/-- Witness for C8 at a concrete state: with maximum supply 1 already
allocated, a further `mintCollectible` fails with `CapacityExceeded`. -/
theorem C8_witness :
    mintCollectible (runC (initC 1) [Op.mintOp 1 "u" "x" 0 false false 0 0]) 2 "u"
      "y" 0 false false 0 0 = .error .capacityExceeded :=
  ((C8_capacity_guard (runC (initC 1) [Op.mintOp 1 "u" "x" 0 false false 0 0]) 2 3
      "u" "y" 0 false false 0 0 [] 1 []).1 (by decide)).1

/-- Witness for C9 at concrete lists of mismatched lengths. -/
theorem C9_witness :
    batchMint (initC 5) [1] [] [] [] [] [] [] [] = .error .arityMismatch :=
  (C9_batch_arity_guard (initC 5) [1] [] [] [] [] [] [] [] (by decide)).1

/-- Witness for C10 at a concrete state: an empty-app-id mint from the
deployment state succeeds. -/
theorem C10_witness :
    (mintCollectible (runC (initC 5) []) 1 "u" "" 0 false false 0 0).isOk
      = true := by
  obtain ⟨s', hok, -, -, -, -⟩ :=
    (C10_empty_appId_mint 5 [] 1 2 "u" 0 false false 0 0 [] 0).1
      (by decide) (by decide)
  rw [hok]
  rfl

end AppBound
